import Mathlib

/-!
Shallow embedding of the timeout scheduler of `src/common/core/Timer.h`
(namespace `core`, struct `Timer`).

The source tree contains only the header `Timer.h`: it fixes the data model
(`timeval dueTime, lastDueTime; int timeoutMs; Callback* cb;`, the static
`std::list<Timer*> pending` registry), the signatures of every operation,
the destructor body `~Timer() {stop();}`, and the fact that
`Callback::handleTimeout(Timer*)` returns `void`.  The implementation file
(`Timer.cxx`) is not part of the tree, so the bodies of `start`, `stop`,
`repeat`, `insertTimer`, `getRemainingMs`, `getNextTimeout`,
`checkTimeouts` and the dispatch loop are modelled from the specification
(sections 3, 4.1 and 4.2 of the design document), as noted on each
definition.

Time is modelled as `Int` milliseconds on a monotonic clock (the header
uses `timeval`; the spec promises millisecond resolution).  Timers are
identified by `Nat` ids; the process-wide registry plus the per-timer
fields form a `World`.  Callbacks return `void` in the header, so they are
modelled as lists of primitive actions (`start`/`repeat`/`stop`/probe) that
a callback body may perform on timers; they produce no continue/cancel
result for the dispatcher to observe.
-/

/-- Error kinds of the spec's section 7: `InvalidArgument` (malformed
interval passed to `start`), `InvalidState` (`repeat()` with no prior
interval, or `getRemainingMs()` on an inactive timer). -/
inductive TErr where
  | invalidArgument
  | invalidState
deriving DecidableEq

/-- A primitive action a callback body may perform.  The header declares
`virtual void handleTimeout(Timer* t)` — a callback returns nothing — so a
callback is modelled as a list of such actions on timers (identified by
id).  `cprobe` records the observed `isStarted` state of a timer into a
log, so that theorems can speak about what a callback observes. -/
inductive CbAct where
  | cstart (target : Nat) (ms : Int)
  | crepeat (target : Nat) (ms : Int)
  | cstop (target : Nat)
  | cprobe (target : Nat)
deriving DecidableEq

/-- The timer a callback action operates on. -/
def CbAct.target : CbAct → Nat
  | .cstart t _ => t
  | .crepeat t _ => t
  | .cstop t => t
  | .cprobe t => t

/-- Whether an action can (re)arm its target (`start` or `repeat`). -/
def CbAct.isRearm : CbAct → Bool
  | .cstart _ _ => true
  | .crepeat _ _ => true
  | .cstop _ => false
  | .cprobe _ => false

/-- Per-timer fields of `struct Timer` (Timer.h lines 110-113):
`timeval dueTime, lastDueTime; int timeoutMs; Callback* cb;`.
`timeoutMs` is `none` while no interval has ever been configured (the
spec's "unset", section 3).  `cb` is fixed at construction
(`Timer(Callback* cb_) {cb = cb_;}`, Timer.h line 70). -/
structure TimerData where
  dueTime : Int
  lastDueTime : Int
  timeoutMs : Option Int
  cb : List CbAct

/-- Process-wide state: every timer's fields plus the registry
`std::list<Timer*> pending` of Timer.h line 118 ("the list of currently
active Timers, ordered by time left until timeout").  `fired` logs the ids
dispatched by `checkTimeouts` in order, and `probes` logs the
`isStarted` observations made by `cprobe` callback actions; both are
instrumentation so that theorems can speak about dispatch behaviour. -/
structure World where
  timers : Nat → TimerData
  pending : List Nat
  fired : List Nat
  probes : List (Nat × Bool)

/-- Replace the fields of one timer. -/
def setTimer (w : World) (id : Nat) (d : TimerData) : World :=
  { w with timers := fun j => if j = id then d else w.timers j }

/-- The absolute due time of a timer. -/
def dueOf (w : World) (id : Nat) : Int :=
  (w.timers id).dueTime

/-- Modelled from the spec: `Timer::isStarted` ("true iff currently
present in the registry", section 4.1); its body is in the missing
`Timer.cxx`. -/
def isStarted (w : World) (id : Nat) : Bool :=
  decide (id ∈ w.pending)

/-- Modelled from the spec: the ordered insertion performed by the missing
`Timer::insertTimer` body — the new timer goes before the first entry with
a strictly larger due time, hence after every entry with an equal or
smaller one ("sorted by ascending absolute due time, ties broken by
insertion order (stable)", sections 2 and 3). -/
def insertSorted (d : Nat → Int) (id : Nat) : List Nat → List Nat
  | [] => [id]
  | x :: xs => if d x ≤ d id then x :: insertSorted d id xs else id :: x :: xs

/-- Modelled from the spec: `Timer::insertTimer` (declared at Timer.h line
115, body in the missing `Timer.cxx`): insert a timer into the registry in
sorted position. -/
def insertTimer (w : World) (id : Nat) : World :=
  { w with pending := insertSorted (dueOf w) id w.pending }

/-- Modelled from the spec: `Timer::stop` (declared at Timer.h line 89,
body in the missing `Timer.cxx`): "removes the timer from the registry if
present; no-op if already inactive" (section 4.1). -/
def Timer.stop (w : World) (id : Nat) : World :=
  { w with pending := w.pending.filter (fun x => x != id) }

/-- `Timer::~Timer() {stop();}` (Timer.h line 71): destruction implicitly
stops the timer.  The destructor body is in the header itself. -/
def Timer.destruct (w : World) (id : Nat) : World :=
  Timer.stop w id

/-- Remove a timer from the registry, replace its fields, and insert it
back in sorted position: the "atomically removes and reinserts" step
shared by `start` and `repeat` (spec section 4.1). -/
def reinsert (w : World) (id : Nat) (d : TimerData) : World :=
  insertTimer (setTimer (Timer.stop w id) id d) id

/-- Modelled from the spec: `Timer::start` (declared at Timer.h line 77,
body in the missing `Timer.cxx`): reject a negative interval with
`InvalidArgument` (section 7); otherwise, if already active, remove and
reinsert in one step; set `lastDueTime = now`, `dueTime = now + timeoutMs`,
store `timeoutMs`, insert in sorted position (section 4.1). -/
def Timer.start (w : World) (id : Nat) (timeoutMs_ : Int) (now : Int) :
    Except TErr World :=
  if timeoutMs_ < 0 then .error .invalidArgument
  else
    .ok (reinsert w id
      { w.timers id with lastDueTime := now, dueTime := now + timeoutMs_,
                         timeoutMs := some timeoutMs_ })

/-- Modelled from the spec: `Timer::repeat` (declared
`void repeat(int timeoutMs_=-1)` at Timer.h line 85, body in the missing
`Timer.cxx`): the header's `-1` default means "reuse the previous
interval"; with no previously known interval this fails with
`InvalidState` (section 4.1 and 7).  Otherwise the new due time is
`lastDueTime + timeoutMs` — NOT `now + timeoutMs` (the drift-avoidance
contract) — `lastDueTime` is updated to the newly computed due time before
insertion, and the timer is reinserted in sorted position even if the
computed due time is already in the past (section 4.1). -/
def Timer.repeat (w : World) (id : Nat) (timeoutMs_ : Int) :
    Except TErr World :=
  match (if timeoutMs_ = -1 then (w.timers id).timeoutMs else some timeoutMs_) with
  | none => .error .invalidState
  | some tm =>
    .ok (reinsert w id
      { w.timers id with dueTime := (w.timers id).lastDueTime + tm,
                         lastDueTime := (w.timers id).lastDueTime + tm,
                         timeoutMs := some tm })

/-- Modelled from the spec: `Timer::getRemainingMs` (declared at Timer.h
line 103, body in the missing `Timer.cxx`): "requires the timer to be
active; returns `max(0, dueTime - now)` in milliseconds; fails with
`InvalidState` if inactive" (section 4.1). -/
def getRemainingMs (w : World) (id : Nat) (now : Int) : Except TErr Int :=
  if isStarted w id then .ok (max 0 (dueOf w id - now))
  else .error .invalidState

/-- Modelled from the spec: `Timer::getNextTimeout` (declared at Timer.h
line 67, body in the missing `Timer.cxx`): the remaining time until the
earliest active timer's due time, clamped to be nonnegative, or the
sentinel `-1` when no timers are active; a pure query (section 4.2). -/
def getNextTimeout (w : World) (now : Int) : Int :=
  match w.pending with
  | [] => -1
  | f :: _ => max 0 (dueOf w f - now)

/-- Run one callback action.  `Timer::start` reads the clock; within a
dispatch pass the model uses the pass's sampled `now` (the spec's section
4.2 step 1: a single timestamp sample shared by the whole pass). -/
def runAct (now : Int) (w : World) : CbAct → Except TErr World
  | .cstart t ms => Timer.start w t ms now
  | .crepeat t ms => Timer.repeat w t ms
  | .cstop t => .ok (Timer.stop w t)
  | .cprobe t => .ok { w with probes := w.probes ++ [(t, isStarted w t)] }

/-- Run a callback body: its actions in order.  A failing action
propagates, as the spec's section 4.2 requires of callback failures. -/
def runCb (now : Int) : World → List CbAct → Except TErr World
  | w, [] => .ok w
  | w, a :: rest => (runAct now w a).bind (fun w1 => runCb now w1 rest)

/-- Modelled from the spec: the state change a firing timer undergoes
before its callback is invoked (section 4.2 step 2): remove it from the
registry, record the fired due time as `lastDueTime` ("the due time used
for the previous firing", section 3 — this is what anchors a subsequent
`repeat()` to the previous scheduled instant), and log the firing.  The
timer is removed before the callback runs. -/
def firePrep (w : World) (id : Nat) : World :=
  let w2 := setTimer (Timer.stop w id) id
    { w.timers id with lastDueTime := (w.timers id).dueTime }
  { w2 with fired := w2.fired ++ [id] }

/-- Modelled from the spec: fire one due timer (section 4.2 steps 2-3):
perform the removal and bookkeeping of `firePrep`, then invoke the
callback.  A timer stopped by an earlier callback of the same pass, or no
longer due, is skipped. -/
def fireOne (now : Int) (w : World) (id : Nat) : Except TErr World :=
  if isStarted w id ∧ dueOf w id ≤ now then
    runCb now (firePrep w id) (w.timers id).cb
  else .ok w

/-- Fire a list of timers in order. -/
def runPass (now : Int) : World → List Nat → Except TErr World
  | w, [] => .ok w
  | w, id :: rest => (fireOne now w id).bind (fun w1 => runPass now w1 rest)

/-- Modelled from the spec: the dispatch pass of `Timer::checkTimeouts`
(section 4.2): capture `now` once, take the timers due at that sampled
`now` — the front segment of the sorted registry whose due time is `≤ now`
(step 5: the scan stops at the first not-yet-due timer) — and fire each of
them once, front to back.  Timers inserted during the pass are not added
to the pass ("only timers due at the sampled `now` fire", step 1; "exactly
one firing per dispatch pass", section 4.1), and a timer stopped by an
earlier callback of the same pass is not fired (section 4.2: "registry
reflects current truth after each removal/insertion"). -/
def dispatch (now : Int) (w : World) : Except TErr World :=
  runPass now w (w.pending.takeWhile (fun id => decide (dueOf w id ≤ now)))

/-- Modelled from the spec: `Timer::checkTimeouts` (declared at Timer.h
line 62, body in the missing `Timer.cxx`): perform dispatch, then return
the same "time until next timeout" as `getNextTimeout`, computed after
dispatch so that it reflects any rearming that happened during the pass
(section 4.2). -/
def checkTimeouts (w : World) (now : Int) : Except TErr (Int × World) :=
  (dispatch now w).map (fun w1 => (getNextTimeout w1 now, w1))

/-- One external call into the scheduler, as performed by application code
or the host loop. -/
inductive Op where
  | ostart (id : Nat) (ms : Int) (now : Int)
  | ostop (id : Nat)
  | orepeat (id : Nat) (ms : Int)
  | ocheck (now : Int)

/-- Apply one call; a call that fails (`InvalidArgument`/`InvalidState`)
raises to the caller before mutating anything, leaving the state
unchanged. -/
def applyOp (w : World) : Op → World
  | .ostart id ms now =>
    match Timer.start w id ms now with
    | .ok w1 => w1
    | .error _ => w
  | .ostop id => Timer.stop w id
  | .orepeat id ms =>
    match Timer.repeat w id ms with
    | .ok w1 => w1
    | .error _ => w
  | .ocheck now =>
    match checkTimeouts w now with
    | .ok (_, w1) => w1
    | .error _ => w

/-- Apply a sequence of calls. -/
def applyOps (w : World) (ops : List Op) : World :=
  ops.foldl applyOp w

/-- The registry invariant of the spec's section 3: the registry lists
each active timer at most once (`Nodup`), in ascending due-time order. -/
def RegInv (w : World) : Prop :=
  w.pending.Pairwise (fun a b => dueOf w a ≤ dueOf w b) ∧ w.pending.Nodup

/-- A callback whose actions all operate on the given timer itself. -/
def SelfCb (w : World) (id : Nat) : Prop :=
  ∀ a ∈ (w.timers id).cb, a.target = id

/-! ### Concrete worlds used to evaluate the model -/

/-- A never-started timer: both times zero, no interval configured, a
callback body that does nothing. -/
def blankTimer : TimerData :=
  ⟨0, 0, none, []⟩

/-- The initial process state: no timer ever started, empty registry. -/
def emptyWorld : World :=
  { timers := fun _ => blankTimer, pending := [], fired := [], probes := [] }

/-- One timer (id 0) armed at time 0 for 50 ms (due at 50) whose callback
body merely returns — the only thing a `void` `handleTimeout` override can
do without explicitly calling `start`/`repeat`/`stop` itself. -/
def noopWorld : World :=
  { timers := fun j => if j = 0 then ⟨50, 0, some 50, []⟩ else blankTimer,
    pending := [0], fired := [], probes := [] }

/-- One timer (id 0) armed at time 0 for 100 ms whose callback re-arms it
with `repeat()` (no argument), the idiom for a periodic timer. -/
def repWorld : World :=
  { timers := fun j => if j = 0 then ⟨100, 0, some 100, [CbAct.crepeat 0 (-1)]⟩
      else blankTimer,
    pending := [0], fired := [], probes := [] }

/-- The state just after a 50 ms timer (id 0), armed at time 0, has fired
late at t = 70: it has been removed from the registry and its
`lastDueTime` records the fired due time 50. -/
def lateWorld : World :=
  { timers := fun j => if j = 0 then ⟨50, 50, some 50, []⟩ else blankTimer,
    pending := [], fired := [0], probes := [] }

/-- One active timer (id 0) due at 50; timer 1 was never started. -/
def activeWorld : World :=
  { timers := fun j => if j = 0 then ⟨50, 0, some 50, []⟩ else blankTimer,
    pending := [0], fired := [], probes := [] }

/-- Two active timers: id 0 due at 30, id 1 due at 40. -/
def twoWorld : World :=
  { timers := fun j =>
      if j = 0 then ⟨30, 0, some 30, []⟩
      else if j = 1 then ⟨40, 0, some 40, []⟩
      else blankTimer,
    pending := [0, 1], fired := [], probes := [] }

/-- One timer (id 0) armed at time 0 for 50 ms whose callback observes its
own `isStarted` state and nothing else. -/
def probeWorld : World :=
  { timers := fun j => if j = 0 then ⟨50, 0, some 50, [CbAct.cprobe 0]⟩
      else blankTimer,
    pending := [0], fired := [], probes := [] }

/-! ### List-level lemmas about the sorted registry -/

theorem mem_insertSorted {d : Nat → Int} {b a : Nat} :
    ∀ {l : List Nat}, a ∈ insertSorted d b l ↔ a = b ∨ a ∈ l := by
  intro l
  induction l with
  | nil => simp [insertSorted]
  | cons x xs ih =>
    by_cases h : d x ≤ d b
    · simp only [insertSorted, if_pos h, List.mem_cons, ih]
      tauto
    · simp only [insertSorted, if_neg h, List.mem_cons]

theorem insertSorted_eq_append (d : Nat → Int) (b : Nat) :
    ∀ l : List Nat,
      insertSorted d b l =
        l.takeWhile (fun x => decide (d x ≤ d b)) ++
          b :: l.dropWhile (fun x => decide (d x ≤ d b)) := by
  intro l
  induction l with
  | nil => simp [insertSorted]
  | cons x xs ih =>
    by_cases h : d x ≤ d b
    · simp [insertSorted, if_pos h, List.takeWhile_cons, List.dropWhile_cons, h, ih]
    · simp [insertSorted, if_neg h, List.takeWhile_cons, List.dropWhile_cons, h]

theorem pairwise_insertSorted {d : Nat → Int} (c : Nat) :
    ∀ {l : List Nat}, l.Pairwise (fun a b => d a ≤ d b) →
      (insertSorted d c l).Pairwise (fun a b => d a ≤ d b) := by
  intro l
  induction l with
  | nil => simp [insertSorted]
  | cons x xs ih =>
    intro h
    rcases List.pairwise_cons.mp h with ⟨hx, hxs⟩
    by_cases hc : d x ≤ d c
    · simp only [insertSorted, if_pos hc]
      refine List.pairwise_cons.mpr ⟨?_, ih hxs⟩
      intro a ha
      rcases mem_insertSorted.mp ha with rfl | ha'
      · exact hc
      · exact hx a ha'
    · simp only [insertSorted, if_neg hc]
      refine List.pairwise_cons.mpr ⟨?_, h⟩
      intro a ha
      rcases List.mem_cons.mp ha with rfl | ha'
      · exact le_of_lt (lt_of_not_le hc)
      · exact le_trans (le_of_lt (lt_of_not_le hc)) (hx a ha')

theorem nodup_insertSorted {d : Nat → Int} {c : Nat} :
    ∀ {l : List Nat}, l.Nodup → c ∉ l → (insertSorted d c l).Nodup := by
  intro l
  induction l with
  | nil => simp [insertSorted]
  | cons x xs ih =>
    intro h hc
    rcases List.nodup_cons.mp h with ⟨hx, hxs⟩
    by_cases hcx : d x ≤ d c
    · simp only [insertSorted, if_pos hcx]
      refine List.nodup_cons.mpr ⟨?_, ih hxs (fun hm => hc (List.mem_cons_of_mem _ hm))⟩
      intro hm
      rcases mem_insertSorted.mp hm with h1 | h1
      · exact hc (h1 ▸ List.mem_cons_self x xs)
      · exact hx h1
    · simp only [insertSorted, if_neg hcx]
      refine List.nodup_cons.mpr ⟨?_, h⟩
      intro hm
      exact hc hm

theorem takeWhile_eq_filter_of_sorted {d : Nat → Int} {now : Int} :
    ∀ {l : List Nat}, l.Pairwise (fun a b => d a ≤ d b) →
      l.takeWhile (fun x => decide (d x ≤ now)) =
        l.filter (fun x => decide (d x ≤ now)) := by
  intro l
  induction l with
  | nil => simp
  | cons x xs ih =>
    intro h
    rcases List.pairwise_cons.mp h with ⟨hx, hxs⟩
    by_cases hd : d x ≤ now
    · simp [List.takeWhile_cons, List.filter_cons, hd, ih hxs]
    · simp only [List.takeWhile_cons, List.filter_cons]
      rw [if_neg (by simpa using hd), if_neg (by simpa using hd)]
      symm
      rw [List.filter_eq_nil_iff]
      intro a ha
      simp only [decide_eq_true_eq]
      intro hle
      exact hd (le_trans (hx a ha) hle)

/-! ### Frame lemmas for the primitive state operations -/

@[simp] theorem stop_timers (w : World) (id : Nat) :
    (Timer.stop w id).timers = w.timers := rfl

@[simp] theorem stop_fired (w : World) (id : Nat) :
    (Timer.stop w id).fired = w.fired := rfl

@[simp] theorem stop_probes (w : World) (id : Nat) :
    (Timer.stop w id).probes = w.probes := rfl

theorem mem_stop {w : World} {id j : Nat} :
    j ∈ (Timer.stop w id).pending ↔ j ∈ w.pending ∧ j ≠ id := by
  simp [Timer.stop, List.mem_filter]

@[simp] theorem not_mem_stop_self {w : World} {id : Nat} :
    id ∉ (Timer.stop w id).pending := by
  simp [mem_stop]

@[simp] theorem setTimer_pending (w : World) (id : Nat) (d : TimerData) :
    (setTimer w id d).pending = w.pending := rfl

@[simp] theorem setTimer_fired (w : World) (id : Nat) (d : TimerData) :
    (setTimer w id d).fired = w.fired := rfl

@[simp] theorem setTimer_probes (w : World) (id : Nat) (d : TimerData) :
    (setTimer w id d).probes = w.probes := rfl

@[simp] theorem setTimer_timers_self (w : World) (id : Nat) (d : TimerData) :
    (setTimer w id d).timers id = d := by
  simp [setTimer]

theorem setTimer_timers_ne {w : World} {id j : Nat} {d : TimerData}
    (h : j ≠ id) : (setTimer w id d).timers j = w.timers j := by
  simp [setTimer, h]

@[simp] theorem insertTimer_timers (w : World) (id : Nat) :
    (insertTimer w id).timers = w.timers := rfl

@[simp] theorem insertTimer_fired (w : World) (id : Nat) :
    (insertTimer w id).fired = w.fired := rfl

@[simp] theorem insertTimer_probes (w : World) (id : Nat) :
    (insertTimer w id).probes = w.probes := rfl

theorem mem_insertTimer {w : World} {id j : Nat} :
    j ∈ (insertTimer w id).pending ↔ j = id ∨ j ∈ w.pending :=
  mem_insertSorted

@[simp] theorem reinsert_fired (w : World) (id : Nat) (d : TimerData) :
    (reinsert w id d).fired = w.fired := rfl

@[simp] theorem reinsert_probes (w : World) (id : Nat) (d : TimerData) :
    (reinsert w id d).probes = w.probes := rfl

@[simp] theorem reinsert_timers_self (w : World) (id : Nat) (d : TimerData) :
    (reinsert w id d).timers id = d := by
  simp [reinsert]

theorem reinsert_timers_ne {w : World} {id j : Nat} {d : TimerData}
    (h : j ≠ id) : (reinsert w id d).timers j = w.timers j := by
  simp [reinsert, setTimer_timers_ne h]

theorem mem_reinsert {w : World} {id j : Nat} {d : TimerData} :
    j ∈ (reinsert w id d).pending ↔ j = id ∨ (j ∈ w.pending ∧ j ≠ id) := by
  simp [reinsert, mem_insertTimer, mem_stop]

@[simp] theorem mem_reinsert_self {w : World} {id : Nat} {d : TimerData} :
    id ∈ (reinsert w id d).pending := by
  simp [mem_reinsert]

theorem mem_reinsert_ne {w : World} {id j : Nat} {d : TimerData}
    (h : j ≠ id) : (j ∈ (reinsert w id d).pending ↔ j ∈ w.pending) := by
  simp [mem_reinsert, h]

@[simp] theorem firePrep_fired (w : World) (id : Nat) :
    (firePrep w id).fired = w.fired ++ [id] := rfl

@[simp] theorem firePrep_probes (w : World) (id : Nat) :
    (firePrep w id).probes = w.probes := rfl

@[simp] theorem firePrep_timers_self (w : World) (id : Nat) :
    (firePrep w id).timers id =
      { w.timers id with lastDueTime := (w.timers id).dueTime } := by
  simp [firePrep]

theorem firePrep_timers_ne {w : World} {id j : Nat} (h : j ≠ id) :
    (firePrep w id).timers j = w.timers j := by
  simp [firePrep, setTimer_timers_ne h]

theorem mem_firePrep {w : World} {id j : Nat} :
    j ∈ (firePrep w id).pending ↔ j ∈ w.pending ∧ j ≠ id := by
  simp [firePrep, mem_stop]

@[simp] theorem not_mem_firePrep_self {w : World} {id : Nat} :
    id ∉ (firePrep w id).pending := by
  simp [mem_firePrep]

theorem isStarted_iff {w : World} {id : Nat} :
    isStarted w id = true ↔ id ∈ w.pending := by
  simp [isStarted]

/-! ### Inversion helpers for `Except` computations -/

theorem except_bind_ok {α β γ : Type} {x : Except γ α} {f : α → Except γ β}
    {b : β} (h : x.bind f = .ok b) : ∃ a, x = .ok a ∧ f a = .ok b := by
  cases x with
  | error e => exact absurd h (by simp [Except.bind])
  | ok a => exact ⟨a, rfl, h⟩

theorem start_ok_shape {w : World} {id : Nat} {ms now : Int} {w' : World}
    (h : Timer.start w id ms now = .ok w') :
    ¬ ms < 0 ∧
      w' = reinsert w id
        { w.timers id with lastDueTime := now, dueTime := now + ms,
                           timeoutMs := some ms } := by
  by_cases hm : ms < 0
  · rw [Timer.start, if_pos hm] at h
    exact absurd h (by simp)
  · rw [Timer.start, if_neg hm] at h
    exact ⟨hm, (Except.ok.injEq _ _ ▸ h).symm⟩

theorem repeat_ok_shape {w : World} {id : Nat} {ms : Int} {w' : World}
    (h : Timer.repeat w id ms = .ok w') :
    ∃ tm,
      w' = reinsert w id
        { w.timers id with dueTime := (w.timers id).lastDueTime + tm,
                           lastDueTime := (w.timers id).lastDueTime + tm,
                           timeoutMs := some tm } := by
  rw [Timer.repeat] at h
  rcases hc : (if ms = -1 then (w.timers id).timeoutMs else some ms) with _ | tm
  · rw [hc] at h
    exact absurd h (by simp)
  · rw [hc] at h
    exact ⟨tm, by cases h; rfl⟩

theorem checkTimeouts_ok {w : World} {now r : Int} {w' : World}
    (h : checkTimeouts w now = .ok (r, w')) :
    dispatch now w = .ok w' ∧ r = getNextTimeout w' now := by
  unfold checkTimeouts at h
  cases hd : dispatch now w with
  | error e => rw [hd] at h; exact absurd h (by simp [Except.map])
  | ok w1 =>
    rw [hd] at h
    simp only [Except.map, Except.ok.injEq, Prod.mk.injEq] at h
    exact ⟨by rw [h.2], by rw [h.2] at h ⊢; exact h.1.symm⟩

/-! ### Preservation of the registry invariant -/

theorem reginv_stop {w : World} (id : Nat) (h : RegInv w) :
    RegInv (Timer.stop w id) := by
  obtain ⟨hs, hn⟩ := h
  exact ⟨List.Pairwise.sublist (List.filter_sublist _) hs,
    List.Nodup.sublist (List.filter_sublist _) hn⟩

theorem reginv_firePrep {w : World} {id : Nat} (h : RegInv w) :
    RegInv (firePrep w id) := by
  obtain ⟨hs, hn⟩ := h
  have hfs := List.Pairwise.sublist (List.filter_sublist (l := w.pending)
    (p := fun x => x != id)) hs
  have hfn := List.Nodup.sublist (List.filter_sublist (l := w.pending)
    (p := fun x => x != id)) hn
  constructor
  · refine List.Pairwise.imp_of_mem ?_ hfs
    intro a b ha hb hab
    have hane : a ≠ id := (mem_firePrep.mp ha).2
    have hbne : b ≠ id := (mem_firePrep.mp hb).2
    show dueOf (firePrep w id) a ≤ dueOf (firePrep w id) b
    simpa [dueOf, firePrep_timers_ne hane, firePrep_timers_ne hbne] using hab
  · exact hfn

theorem reginv_reinsert {w : World} {id : Nat} {d : TimerData} (h : RegInv w) :
    RegInv (reinsert w id d) := by
  obtain ⟨hs, hn⟩ := h
  have hfs := List.Pairwise.sublist (List.filter_sublist (l := w.pending)
    (p := fun x => x != id)) hs
  have hfn := List.Nodup.sublist (List.filter_sublist (l := w.pending)
    (p := fun x => x != id)) hn
  have hnotmem : id ∉ w.pending.filter (fun x => x != id) := by
    simp [List.mem_filter]
  have h2 : (w.pending.filter (fun x => x != id)).Pairwise
      (fun a b => dueOf (setTimer (Timer.stop w id) id d) a ≤
        dueOf (setTimer (Timer.stop w id) id d) b) := by
    refine List.Pairwise.imp_of_mem ?_ hfs
    intro a b ha hb hab
    have hane : a ≠ id := by
      simp only [List.mem_filter, bne_iff_ne, ne_eq, decide_not] at ha
      simpa using ha.2
    have hbne : b ≠ id := by
      simp only [List.mem_filter, bne_iff_ne, ne_eq, decide_not] at hb
      simpa using hb.2
    simpa [dueOf, setTimer_timers_ne hane, setTimer_timers_ne hbne] using hab
  exact ⟨pairwise_insertSorted id h2, nodup_insertSorted hfn hnotmem⟩

theorem reginv_start {w : World} {id : Nat} {ms now : Int} {w' : World}
    (h : RegInv w) (hok : Timer.start w id ms now = .ok w') : RegInv w' := by
  obtain ⟨-, rfl⟩ := start_ok_shape hok
  exact reginv_reinsert h

theorem reginv_repeat {w : World} {id : Nat} {ms : Int} {w' : World}
    (h : RegInv w) (hok : Timer.repeat w id ms = .ok w') : RegInv w' := by
  obtain ⟨tm, rfl⟩ := repeat_ok_shape hok
  exact reginv_reinsert h

theorem reginv_runAct {now : Int} {w : World} {a : CbAct} {w' : World}
    (h : RegInv w) (hok : runAct now w a = .ok w') : RegInv w' := by
  cases a with
  | cstart t ms => exact reginv_start h hok
  | crepeat t ms => exact reginv_repeat h hok
  | cstop t =>
    cases hok
    exact reginv_stop t h
  | cprobe t =>
    cases hok
    exact h

theorem reginv_runCb {now : Int} :
    ∀ {acts : List CbAct} {w w' : World}, RegInv w →
      runCb now w acts = .ok w' → RegInv w' := by
  intro acts
  induction acts with
  | nil =>
    intro w w' h hok
    cases hok
    exact h
  | cons a rest ih =>
    intro w w' h hok
    obtain ⟨w1, h1, h2⟩ := except_bind_ok hok
    exact ih (reginv_runAct h h1) h2

theorem reginv_fireOne {now : Int} {w : World} {id : Nat} {w' : World}
    (h : RegInv w) (hok : fireOne now w id = .ok w') : RegInv w' := by
  unfold fireOne at hok
  split at hok
  · exact reginv_runCb (reginv_firePrep h) hok
  · cases hok
    exact h

theorem reginv_runPass {now : Int} :
    ∀ {s : List Nat} {w w' : World}, RegInv w →
      runPass now w s = .ok w' → RegInv w' := by
  intro s
  induction s with
  | nil =>
    intro w w' h hok
    cases hok
    exact h
  | cons id rest ih =>
    intro w w' h hok
    obtain ⟨w1, h1, h2⟩ := except_bind_ok hok
    exact ih (reginv_fireOne h h1) h2

theorem reginv_checkTimeouts {w : World} {now r : Int} {w' : World}
    (h : RegInv w) (hok : checkTimeouts w now = .ok (r, w')) : RegInv w' :=
  reginv_runPass h (checkTimeouts_ok hok).1

theorem reginv_applyOp {w : World} (op : Op) (h : RegInv w) :
    RegInv (applyOp w op) := by
  cases op with
  | ostart id ms now =>
    simp only [applyOp]
    cases hok : Timer.start w id ms now with
    | ok w1 => exact reginv_start h hok
    | error e => exact h
  | ostop id => exact reginv_stop id h
  | orepeat id ms =>
    simp only [applyOp]
    cases hok : Timer.repeat w id ms with
    | ok w1 => exact reginv_repeat h hok
    | error e => exact h
  | ocheck now =>
    simp only [applyOp]
    cases hok : checkTimeouts w now with
    | ok p =>
      obtain ⟨r, w1⟩ := p
      exact reginv_checkTimeouts h hok
    | error e => exact h

/-! ### What callback actions can and cannot change -/

theorem runAct_fired {now : Int} {w : World} {a : CbAct} {w' : World}
    (hok : runAct now w a = .ok w') : w'.fired = w.fired := by
  cases a with
  | cstart t ms =>
    obtain ⟨-, rfl⟩ := start_ok_shape hok
    simp
  | crepeat t ms =>
    obtain ⟨tm, rfl⟩ := repeat_ok_shape hok
    simp
  | cstop t => cases hok; simp
  | cprobe t => cases hok; rfl

theorem runAct_cb {now : Int} {w : World} {a : CbAct} {w' : World}
    (hok : runAct now w a = .ok w') (j : Nat) :
    (w'.timers j).cb = (w.timers j).cb := by
  cases a with
  | cstart t ms =>
    obtain ⟨-, rfl⟩ := start_ok_shape hok
    by_cases hj : j = t
    · subst hj; simp
    · rw [reinsert_timers_ne hj]
  | crepeat t ms =>
    obtain ⟨tm, rfl⟩ := repeat_ok_shape hok
    by_cases hj : j = t
    · subst hj; simp
    · rw [reinsert_timers_ne hj]
  | cstop t => cases hok; rfl
  | cprobe t => cases hok; rfl

theorem runAct_probes {now : Int} {w : World} {a : CbAct} {w' : World}
    (hok : runAct now w a = .ok w') : ∃ t, w'.probes = w.probes ++ t := by
  cases a with
  | cstart t ms =>
    obtain ⟨-, rfl⟩ := start_ok_shape hok
    exact ⟨[], by simp⟩
  | crepeat t ms =>
    obtain ⟨tm, rfl⟩ := repeat_ok_shape hok
    exact ⟨[], by simp⟩
  | cstop t => cases hok; exact ⟨[], by simp⟩
  | cprobe t => cases hok; exact ⟨[(t, isStarted w t)], rfl⟩

theorem runAct_frame {now : Int} {w : World} {a : CbAct} {w' : World} {j : Nat}
    (hok : runAct now w a = .ok w') (hj : j ≠ a.target) :
    (j ∈ w'.pending ↔ j ∈ w.pending) ∧ w'.timers j = w.timers j := by
  cases a with
  | cstart t ms =>
    obtain ⟨-, rfl⟩ := start_ok_shape hok
    exact ⟨mem_reinsert_ne hj, reinsert_timers_ne hj⟩
  | crepeat t ms =>
    obtain ⟨tm, rfl⟩ := repeat_ok_shape hok
    exact ⟨mem_reinsert_ne hj, reinsert_timers_ne hj⟩
  | cstop t =>
    cases hok
    exact ⟨by rw [mem_stop]; exact ⟨fun h => h.1, fun h => ⟨h, hj⟩⟩, rfl⟩
  | cprobe t => cases hok; exact ⟨Iff.rfl, rfl⟩

theorem runAct_keeps_out {now : Int} {w : World} {a : CbAct} {w' : World}
    {j : Nat} (hok : runAct now w a = .ok w') (hj : j ∉ w.pending)
    (hre : a.isRearm = true → a.target ≠ j) : j ∉ w'.pending := by
  cases a with
  | cstart t ms =>
    obtain ⟨-, rfl⟩ := start_ok_shape hok
    have ht : t ≠ j := hre rfl
    rw [mem_reinsert]
    rintro (rfl | ⟨hm, -⟩)
    · exact ht rfl
    · exact hj hm
  | crepeat t ms =>
    obtain ⟨tm, rfl⟩ := repeat_ok_shape hok
    have ht : t ≠ j := hre rfl
    rw [mem_reinsert]
    rintro (rfl | ⟨hm, -⟩)
    · exact ht rfl
    · exact hj hm
  | cstop t =>
    cases hok
    rw [mem_stop]
    exact fun h => hj h.1
  | cprobe t => cases hok; exact hj

theorem runCb_fired {now : Int} :
    ∀ {acts : List CbAct} {w w' : World},
      runCb now w acts = .ok w' → w'.fired = w.fired := by
  intro acts
  induction acts with
  | nil => intro w w' hok; cases hok; rfl
  | cons a rest ih =>
    intro w w' hok
    obtain ⟨w1, h1, h2⟩ := except_bind_ok hok
    rw [ih h2, runAct_fired h1]

theorem runCb_cb {now : Int} :
    ∀ {acts : List CbAct} {w w' : World},
      runCb now w acts = .ok w' → ∀ j, (w'.timers j).cb = (w.timers j).cb := by
  intro acts
  induction acts with
  | nil => intro w w' hok j; cases hok; rfl
  | cons a rest ih =>
    intro w w' hok j
    obtain ⟨w1, h1, h2⟩ := except_bind_ok hok
    rw [ih h2 j, runAct_cb h1 j]

theorem runCb_probes {now : Int} :
    ∀ {acts : List CbAct} {w w' : World},
      runCb now w acts = .ok w' → ∃ t, w'.probes = w.probes ++ t := by
  intro acts
  induction acts with
  | nil => intro w w' hok; cases hok; exact ⟨[], by simp⟩
  | cons a rest ih =>
    intro w w' hok
    obtain ⟨w1, h1, h2⟩ := except_bind_ok hok
    obtain ⟨t1, ht1⟩ := runAct_probes h1
    obtain ⟨t2, ht2⟩ := ih h2
    exact ⟨t1 ++ t2, by rw [ht2, ht1, List.append_assoc]⟩

theorem runCb_frame {now : Int} :
    ∀ {acts : List CbAct} {w w' : World} {j : Nat},
      runCb now w acts = .ok w' → (∀ a ∈ acts, j ≠ a.target) →
      (j ∈ w'.pending ↔ j ∈ w.pending) ∧ w'.timers j = w.timers j := by
  intro acts
  induction acts with
  | nil => intro w w' j hok _; cases hok; exact ⟨Iff.rfl, rfl⟩
  | cons a rest ih =>
    intro w w' j hok hj
    obtain ⟨w1, h1, h2⟩ := except_bind_ok hok
    have ha := runAct_frame h1 (hj a (List.mem_cons_self a rest))
    have hr := ih h2 (fun b hb => hj b (List.mem_cons_of_mem a hb))
    exact ⟨hr.1.trans ha.1, hr.2.trans ha.2⟩

theorem runCb_keeps_out {now : Int} :
    ∀ {acts : List CbAct} {w w' : World} {j : Nat},
      runCb now w acts = .ok w' → j ∉ w.pending →
      (∀ a ∈ acts, a.isRearm = true → a.target ≠ j) → j ∉ w'.pending := by
  intro acts
  induction acts with
  | nil => intro w w' j hok hj _; cases hok; exact hj
  | cons a rest ih =>
    intro w w' j hok hj hre
    obtain ⟨w1, h1, h2⟩ := except_bind_ok hok
    exact ih h2 (runAct_keeps_out h1 hj (hre a (List.mem_cons_self a rest)))
      (fun b hb => hre b (List.mem_cons_of_mem a hb))

/-! ### Behaviour of a single firing -/

theorem fireOne_of_due {now : Int} {w : World} {id : Nat}
    (h1 : id ∈ w.pending) (h2 : dueOf w id ≤ now) :
    fireOne now w id = runCb now (firePrep w id) ((w.timers id).cb) := by
  unfold fireOne
  rw [if_pos ⟨isStarted_iff.mpr h1, h2⟩]

theorem fireOne_not_started {now : Int} {w : World} {id : Nat}
    (h : id ∉ w.pending) : fireOne now w id = .ok w := by
  unfold fireOne
  rw [if_neg]
  intro hc
  exact h (isStarted_iff.mp hc.1)

theorem fireOne_fired_of_due {now : Int} {w : World} {id : Nat} {w' : World}
    (h1 : id ∈ w.pending) (h2 : dueOf w id ≤ now)
    (hok : fireOne now w id = .ok w') : w'.fired = w.fired ++ [id] := by
  rw [fireOne_of_due h1 h2] at hok
  rw [runCb_fired hok, firePrep_fired]

theorem fireOne_fired_sub {now : Int} {w : World} {id : Nat} {w' : World}
    (hok : fireOne now w id = .ok w') {x : Nat} (hx : x ∈ w'.fired) :
    x ∈ w.fired ∨ x = id := by
  unfold fireOne at hok
  split at hok
  · rw [runCb_fired hok, firePrep_fired] at hx
    rcases List.mem_append.mp hx with h | h
    · exact Or.inl h
    · exact Or.inr (List.mem_singleton.mp h)
  · cases hok
    exact Or.inl hx

theorem fireOne_cb {now : Int} {w : World} {id : Nat} {w' : World}
    (hok : fireOne now w id = .ok w') (j : Nat) :
    (w'.timers j).cb = (w.timers j).cb := by
  unfold fireOne at hok
  split at hok
  · rw [runCb_cb hok j]
    by_cases hj : j = id
    · subst hj; simp
    · rw [firePrep_timers_ne hj]
  · cases hok
    rfl

theorem fireOne_probes {now : Int} {w : World} {id : Nat} {w' : World}
    (hok : fireOne now w id = .ok w') : ∃ t, w'.probes = w.probes ++ t := by
  unfold fireOne at hok
  split at hok
  · obtain ⟨t, ht⟩ := runCb_probes hok
    exact ⟨t, by rw [ht, firePrep_probes]⟩
  · cases hok
    exact ⟨[], by simp⟩

theorem fireOne_frame {now : Int} {w : World} {id : Nat} {w' : World} {j : Nat}
    (hok : fireOne now w id = .ok w') (hself : SelfCb w id) (hj : j ≠ id) :
    (j ∈ w'.pending ↔ j ∈ w.pending) ∧ w'.timers j = w.timers j := by
  unfold fireOne at hok
  split at hok
  · have hcb := runCb_frame hok
      (fun a ha => by rw [hself a ha]; exact hj)
    refine ⟨hcb.1.trans ?_, hcb.2.trans (firePrep_timers_ne hj)⟩
    rw [mem_firePrep]
    exact ⟨fun h => h.1, fun h => ⟨h, hj⟩⟩
  · cases hok
    exact ⟨Iff.rfl, rfl⟩

theorem fireOne_keeps_out {now : Int} {w : World} {id : Nat} {w' : World}
    {j : Nat} (hok : fireOne now w id = .ok w') (hself : SelfCb w id)
    (hj : j ∉ w.pending) : j ∉ w'.pending := by
  by_cases hij : id = j
  · subst hij
    rw [fireOne_not_started hj] at hok
    cases hok
    exact hj
  · unfold fireOne at hok
    split at hok
    · refine runCb_keeps_out hok ?_ ?_
      · rw [mem_firePrep]
        exact fun h => hj h.1
      · intro a ha _
        rw [hself a ha]
        exact hij
    · cases hok
      exact hj

/-! ### Behaviour of a dispatch pass -/

theorem runPass_append {now : Int} (l1 l2 : List Nat) :
    ∀ w : World, runPass now w (l1 ++ l2) =
      (runPass now w l1).bind (fun w1 => runPass now w1 l2) := by
  induction l1 with
  | nil => intro w; rfl
  | cons x xs ih =>
    intro w
    show (fireOne now w x).bind _ = ((fireOne now w x).bind _).bind _
    cases fireOne now w x with
    | error e => rfl
    | ok w1 => exact ih w1

theorem runPass_fired_sub {now : Int} :
    ∀ {s : List Nat} {w w' : World}, runPass now w s = .ok w' →
      ∀ x ∈ w'.fired, x ∈ w.fired ∨ x ∈ s := by
  intro s
  induction s with
  | nil =>
    intro w w' hok x hx
    cases hok
    exact Or.inl hx
  | cons id rest ih =>
    intro w w' hok x hx
    obtain ⟨w1, h1, h2⟩ := except_bind_ok hok
    rcases ih h2 x hx with h | h
    · rcases fireOne_fired_sub h1 h with h' | h'
      · exact Or.inl h'
      · exact Or.inr (h' ▸ List.mem_cons_self id rest)
    · exact Or.inr (List.mem_cons_of_mem id h)

theorem runPass_cb {now : Int} :
    ∀ {s : List Nat} {w w' : World}, runPass now w s = .ok w' →
      ∀ j, (w'.timers j).cb = (w.timers j).cb := by
  intro s
  induction s with
  | nil => intro w w' hok j; cases hok; rfl
  | cons id rest ih =>
    intro w w' hok j
    obtain ⟨w1, h1, h2⟩ := except_bind_ok hok
    rw [ih h2 j, fireOne_cb h1 j]

theorem runPass_frame {now : Int} :
    ∀ {s : List Nat} {w w' : World} {j : Nat}, runPass now w s = .ok w' →
      (∀ k ∈ s, SelfCb w k) → j ∉ s →
      (j ∈ w'.pending ↔ j ∈ w.pending) ∧ w'.timers j = w.timers j := by
  intro s
  induction s with
  | nil => intro w w' j hok _ _; cases hok; exact ⟨Iff.rfl, rfl⟩
  | cons id rest ih =>
    intro w w' j hok hself hj
    obtain ⟨w1, h1, h2⟩ := except_bind_ok hok
    have hj1 : j ≠ id := fun h => hj (h ▸ List.mem_cons_self id rest)
    have hfr := fireOne_frame h1 (hself id (List.mem_cons_self id rest)) hj1
    have hself1 : ∀ k ∈ rest, SelfCb w1 k := by
      intro k hk a ha
      rw [fireOne_cb h1 k] at ha
      exact hself k (List.mem_cons_of_mem id hk) a ha
    have hr := ih h2 hself1 (fun h => hj (List.mem_cons_of_mem id h))
    exact ⟨hr.1.trans hfr.1, hr.2.trans hfr.2⟩

theorem runPass_keeps_out {now : Int} :
    ∀ {s : List Nat} {w w' : World} {j : Nat}, runPass now w s = .ok w' →
      (∀ k ∈ s, SelfCb w k) → j ∉ w.pending → j ∉ w'.pending := by
  intro s
  induction s with
  | nil => intro w w' j hok _ hj; cases hok; exact hj
  | cons id rest ih =>
    intro w w' j hok hself hj
    obtain ⟨w1, h1, h2⟩ := except_bind_ok hok
    have hj1 := fireOne_keeps_out h1 (hself id (List.mem_cons_self id rest)) hj
    have hself1 : ∀ k ∈ rest, SelfCb w1 k := by
      intro k hk a ha
      rw [fireOne_cb h1 k] at ha
      exact hself k (List.mem_cons_of_mem id hk) a ha
    exact ih h2 hself1 hj1

theorem runPass_fired_exact {now : Int} :
    ∀ {s : List Nat} {w w' : World}, runPass now w s = .ok w' → s.Nodup →
      (∀ k ∈ s, k ∈ w.pending ∧ dueOf w k ≤ now ∧ SelfCb w k) →
      w'.fired = w.fired ++ s := by
  intro s
  induction s with
  | nil => intro w w' hok _ _; cases hok; simp
  | cons id rest ih =>
    intro w w' hok hnd hall
    obtain ⟨w1, h1, h2⟩ := except_bind_ok hok
    obtain ⟨hmem, hdue, hself⟩ := hall id (List.mem_cons_self id rest)
    have hf1 : w1.fired = w.fired ++ [id] := fireOne_fired_of_due hmem hdue h1
    rcases List.nodup_cons.mp hnd with ⟨hid, hndr⟩
    have hall1 : ∀ k ∈ rest, k ∈ w1.pending ∧ dueOf w1 k ≤ now ∧ SelfCb w1 k := by
      intro k hk
      have hkne : k ≠ id := fun h => hid (h ▸ hk)
      have hfr := fireOne_frame h1 hself hkne
      obtain ⟨hm, hd, hs⟩ := hall k (List.mem_cons_of_mem id hk)
      refine ⟨hfr.1.mpr hm, ?_, ?_⟩
      · show dueOf w1 k ≤ now
        unfold dueOf
        rw [hfr.2]
        exact hd
      · intro a ha
        rw [fireOne_cb h1 k] at ha
        exact hs a ha
    rw [ih h2 hndr hall1, hf1, List.append_assoc]
    rfl

/-! ### Dispatch at the level of `checkTimeouts` -/

theorem reginv_applyOps : ∀ (ops : List Op) (w : World), RegInv w →
    RegInv (applyOps w ops) := by
  intro ops
  induction ops with
  | nil => intro w h; exact h
  | cons op rest ih =>
    intro w h
    exact ih (applyOp w op) (reginv_applyOp op h)

theorem dispatch_eq_filter {w : World} {now : Int} (hInv : RegInv w) :
    dispatch now w =
      runPass now w (w.pending.filter (fun id => decide (dueOf w id ≤ now))) := by
  unfold dispatch
  rw [takeWhile_eq_filter_of_sorted hInv.1]

/-! ### Claim theorems -/

/-- Claim C3: drift-free repeat — for every timer with a known interval,
`repeat()` (no argument) sets the new `dueTime` to `lastDueTime +
timeoutMs`, not `now + timeoutMs` (it does not read the clock at all), and
updates `lastDueTime` to that newly computed due time before reinsertion
into the registry. -/
theorem repeat_drift_free (w : World) (id : Nat) (tm : Int)
    (h : (w.timers id).timeoutMs = some tm) :
    ∃ w', Timer.repeat w id (-1) = .ok w' ∧
      dueOf w' id = (w.timers id).lastDueTime + tm ∧
      (w'.timers id).lastDueTime = (w.timers id).lastDueTime + tm ∧
      (w'.timers id).timeoutMs = some tm ∧
      id ∈ w'.pending := by
  have heq : Timer.repeat w id (-1) = .ok (reinsert w id
      { w.timers id with dueTime := (w.timers id).lastDueTime + tm,
                         lastDueTime := (w.timers id).lastDueTime + tm,
                         timeoutMs := some tm }) := by
    unfold Timer.repeat
    rw [if_pos rfl, h]
  refine ⟨_, heq, ?_, ?_, ?_, ?_⟩
  · show dueOf (reinsert w id _) id = _
    unfold dueOf
    rw [reinsert_timers_self]
  · rw [reinsert_timers_self]
  · rw [reinsert_timers_self]
  · exact mem_reinsert_self

/-- Witness for C3, the spec's own test scenario: a 50 ms timer armed at
t = 0 fired late at t = 70 (its fire recorded `lastDueTime = 50`);
`repeat()` with no argument yields a new due time of 50 + 50 = 100, not
70 + 50 = 120. -/
theorem repeat_drift_free_witness :
    (lateWorld.timers 0).timeoutMs = some 50 ∧
    ∃ w', Timer.repeat lateWorld 0 (-1) = .ok w' ∧
      dueOf w' 0 = 100 ∧ dueOf w' 0 ≠ 70 + 50 := by
  obtain ⟨w', hok, hdue, -, -, -⟩ := repeat_drift_free lateWorld 0 50 (by rfl)
  refine ⟨by rfl, w', hok, ?_, ?_⟩
  · rw [hdue]; rfl
  · rw [hdue]; decide

/-- Claim C5: `start(timeoutMs)` for a nonnegative interval sets
`lastDueTime = now`, `dueTime = now + timeoutMs`, stores `timeoutMs`, and
inserts the timer into the registry in sorted position; if already active
it is removed and reinserted in the same single step, ending up present
exactly once, with every other timer untouched, and the registry invariant
maintained. -/
theorem start_contract (w : World) (id : Nat) (ms now : Int)
    (hms : 0 ≤ ms) (hInv : RegInv w) :
    ∃ w', Timer.start w id ms now = .ok w' ∧
      (w'.timers id).lastDueTime = now ∧
      dueOf w' id = now + ms ∧
      (w'.timers id).timeoutMs = some ms ∧
      id ∈ w'.pending ∧
      w'.pending.count id = 1 ∧
      (∀ j, j ≠ id → ((j ∈ w'.pending ↔ j ∈ w.pending) ∧
        w'.timers j = w.timers j)) ∧
      RegInv w' := by
  have heq : Timer.start w id ms now = .ok (reinsert w id
      { w.timers id with lastDueTime := now, dueTime := now + ms,
                         timeoutMs := some ms }) := by
    unfold Timer.start
    rw [if_neg (not_lt.mpr hms)]
  refine ⟨_, heq, ?_, ?_, ?_, mem_reinsert_self, ?_, ?_, reginv_reinsert hInv⟩
  · rw [reinsert_timers_self]
  · unfold dueOf
    rw [reinsert_timers_self]
  · rw [reinsert_timers_self]
  · exact List.count_eq_one_of_mem (reginv_reinsert hInv).2 mem_reinsert_self
  · intro j hj
    exact ⟨mem_reinsert_ne hj, reinsert_timers_ne hj⟩

/-- Witness for C5: starting timer 0 for 50 ms at time 0 from the initial
state arms it due at 50, present exactly once. -/
theorem start_contract_witness :
    (0:Int) ≤ 50 ∧
    ∃ w', Timer.start emptyWorld 0 50 0 = .ok w' ∧
      dueOf w' 0 = 0 + 50 ∧ w'.pending.count 0 = 1 := by
  obtain ⟨w', hok, -, hdue, -, -, hcount, -, -⟩ :=
    start_contract emptyWorld 0 50 0 (by decide)
      (by constructor <;> simp [emptyWorld])
  exact ⟨by decide, w', hok, hdue, hcount⟩

/-- Claim C7: for an active timer, `getRemainingMs()` returns
`max(0, dueTime - now)`; for an inactive timer it fails with
`InvalidState`. -/
theorem getRemainingMs_contract (w : World) (id : Nat) (now : Int) :
    (isStarted w id = true →
      getRemainingMs w id now = .ok (max 0 (dueOf w id - now))) ∧
    (isStarted w id = false →
      getRemainingMs w id now = .error .invalidState) := by
  constructor
  · intro h
    unfold getRemainingMs
    rw [if_pos h]
  · intro h
    unfold getRemainingMs
    rw [if_neg]
    simp [h]

/-- Witness for C7: timer 0 of `activeWorld` is active and due at 50, so
20 ms before its due time 30 ms remain; timer 1 was never started, so the
query fails with `InvalidState`. -/
theorem getRemainingMs_contract_witness :
    getRemainingMs activeWorld 0 30 = .ok (max 0 (dueOf activeWorld 0 - 30)) ∧
    getRemainingMs activeWorld 1 30 = .error .invalidState := by
  exact ⟨(getRemainingMs_contract activeWorld 0 30).1 (by rfl),
         (getRemainingMs_contract activeWorld 1 30).2 (by rfl)⟩

/-- Claim C8: `repeat()` with no argument (the header's `-1` default) on a
timer that has no previously known interval fails with `InvalidState`
rather than arming the timer: the call surfaces the error and changes
nothing. -/
theorem repeat_requires_prior_interval (w : World) (id : Nat)
    (h : (w.timers id).timeoutMs = none) :
    Timer.repeat w id (-1) = .error .invalidState ∧
    applyOp w (.orepeat id (-1)) = w := by
  have h1 : Timer.repeat w id (-1) = .error .invalidState := by
    unfold Timer.repeat
    rw [if_pos rfl, h]
  refine ⟨h1, ?_⟩
  simp only [applyOp]
  rw [h1]

/-- Witness for C8: in the initial state timer 0 has never been given an
interval, so `repeat()` with no argument fails and arms nothing. -/
theorem repeat_requires_prior_interval_witness :
    (emptyWorld.timers 0).timeoutMs = none ∧
    Timer.repeat emptyWorld 0 (-1) = .error .invalidState ∧
    applyOp emptyWorld (.orepeat 0 (-1)) = emptyWorld := by
  obtain ⟨h1, h2⟩ := repeat_requires_prior_interval emptyWorld 0 (by rfl)
  exact ⟨by rfl, h1, h2⟩

/-- Claim C6: `getNextTimeout()` is a query with no dispatch — in the
model it is a plain function of the state, returning a value and touching
nothing — and it returns the sentinel `-1` exactly when no timers are
active, and otherwise the remaining time until the earliest active
timer's due time (the front of the sorted registry, which is minimal),
clamped to be nonnegative. -/
theorem getNextTimeout_query (w : World) (now : Int) (hInv : RegInv w) :
    (getNextTimeout w now = -1 ↔ w.pending = []) ∧
    (∀ f t, w.pending = f :: t →
       getNextTimeout w now = max 0 (dueOf w f - now) ∧
       0 ≤ getNextTimeout w now ∧
       ∀ j ∈ w.pending, dueOf w f ≤ dueOf w j) := by
  have hcons : ∀ f t, w.pending = f :: t →
      getNextTimeout w now = max 0 (dueOf w f - now) := by
    intro f t hp
    unfold getNextTimeout
    rw [hp]
  constructor
  · constructor
    · intro h
      cases hp : w.pending with
      | nil => rfl
      | cons f t =>
        have h0 : (0:Int) ≤ max 0 (dueOf w f - now) := le_max_left _ _
        rw [← hcons f t hp, h] at h0
        exact absurd h0 (by decide)
    · intro h
      unfold getNextTimeout
      rw [h]
  · intro f t hp
    refine ⟨hcons f t hp, by rw [hcons f t hp]; exact le_max_left _ _, ?_⟩
    intro j hj
    rw [hp] at hj
    rcases List.mem_cons.mp hj with rfl | hj'
    · exact le_refl _
    · have hpw := hInv.1
      rw [hp] at hpw
      exact (List.pairwise_cons.mp hpw).1 j hj'

/-- Witness for C6: with two timers due at 30 and 40 and `now = 10`, the
next timeout is 20 ms (the earlier timer's), not `-1`. -/
theorem getNextTimeout_query_witness :
    (getNextTimeout twoWorld 10 = -1 ↔ twoWorld.pending = []) ∧
    getNextTimeout twoWorld 10 = max 0 (dueOf twoWorld 0 - 10) ∧
    getNextTimeout twoWorld 10 = 20 := by
  have h := getNextTimeout_query twoWorld 10
    (by constructor <;> simp [twoWorld, dueOf])
  exact ⟨h.1, (h.2 0 [1] rfl).1, by decide⟩

/-- Claim C9: destruction implicitly stops — the destructor body in the
header is exactly `stop()`, so a destroyed timer is no longer in the
registry, and a subsequent `checkTimeouts()` pass never fires it (the
destroyed timer does not appear among the ids dispatched by the pass). -/
theorem destructor_removes_from_registry (w : World) (id : Nat)
    (now r : Int) (w' : World) (hf : id ∉ w.fired)
    (hok : checkTimeouts (Timer.destruct w id) now = .ok (r, w')) :
    Timer.destruct w id = Timer.stop w id ∧
    isStarted (Timer.destruct w id) id = false ∧
    id ∉ w'.fired := by
  obtain ⟨hd, -⟩ := checkTimeouts_ok hok
  unfold dispatch at hd
  refine ⟨rfl, decide_eq_false not_mem_stop_self, ?_⟩
  intro hx
  rcases runPass_fired_sub hd id hx with h | h
  · exact hf h
  · exact not_mem_stop_self ((List.takeWhile_sublist _).subset h)

/-- Witness for C9: destroying the active timer 0 removes it from the
registry, and the following pass (at a time well past its due time) does
not fire it. -/
theorem destructor_removes_from_registry_witness :
    0 ∉ activeWorld.fired ∧
    ∃ r w', checkTimeouts (Timer.destruct activeWorld 0) 100 = .ok (r, w') ∧
      isStarted (Timer.destruct activeWorld 0) 0 = false ∧
      0 ∉ w'.fired := by
  obtain ⟨⟨r, w'⟩, hp⟩ :
      ∃ p, checkTimeouts (Timer.destruct activeWorld 0) 100 = .ok p :=
    ⟨_, rfl⟩
  have h := destructor_removes_from_registry activeWorld 0 100 r w'
    (by simp [activeWorld]) hp
  exact ⟨by simp [activeWorld], r, w', hp, h.2.1, h.2.2⟩

/-- Claim C1: after every sequence of `start`/`stop`/`repeat` calls and
dispatch passes, the process-wide registry satisfies its invariant — it
holds each active timer at most once (membership in it is what "active"
means), in ascending due-time order — and insertion always places a timer
after every entry with an equal-or-smaller due time and before every later
entry, so equal due times keep their insertion order (stable ties). -/
theorem registry_invariant (w : World) (hInv : RegInv w) (ops : List Op) :
    RegInv (applyOps w ops) ∧
    ∀ (d : Nat → Int) (id : Nat) (l : List Nat),
      insertSorted d id l =
        l.takeWhile (fun x => decide (d x ≤ d id)) ++
          id :: l.dropWhile (fun x => decide (d x ≤ d id)) :=
  ⟨reginv_applyOps ops w hInv, fun d id l => insertSorted_eq_append d id l⟩

/-- Witness for C1: a concrete call sequence from the initial state —
start two timers, stop one, run a dispatch pass — ends in a state
satisfying the registry invariant. -/
theorem registry_invariant_witness :
    RegInv (applyOps emptyWorld
      [Op.ostart 0 50 0, Op.ostart 1 50 1, Op.ostop 0, Op.ocheck 60]) :=
  (registry_invariant emptyWorld ⟨List.Pairwise.nil, List.nodup_nil⟩
    [Op.ostart 0 50 0, Op.ostart 1 50 1, Op.ostop 0, Op.ocheck 60]).1

/-- Claim C2: dispatch contract of `checkTimeouts()` — one `now` is
sampled for the whole pass; the pass removes and fires, front to back in
ascending due-time order, exactly the registered timers whose due time is
at or before that sampled `now` (here, passes whose callbacks act only on
their own timer, the spec's reentrancy rule letting a callback stop
another due timer otherwise); each fires exactly once even if the pass is
delayed past several periods; and the call returns the time until the
next due timer computed after dispatch, reflecting rearming done during
the pass. -/
theorem checkTimeouts_dispatch_contract (w : World) (now r : Int)
    (w' : World) (hInv : RegInv w)
    (hself : ∀ id ∈ w.pending, SelfCb w id)
    (hok : checkTimeouts w now = .ok (r, w')) :
    w'.fired = w.fired ++
      w.pending.filter (fun id => decide (dueOf w id ≤ now)) ∧
    (∀ id, id ∈ w.pending.filter (fun id => decide (dueOf w id ≤ now)) ↔
       id ∈ w.pending ∧ dueOf w id ≤ now) ∧
    (w.pending.filter (fun id => decide (dueOf w id ≤ now))).Nodup ∧
    (w.pending.filter (fun id => decide (dueOf w id ≤ now))).Pairwise
      (fun a b => dueOf w a ≤ dueOf w b) ∧
    r = getNextTimeout w' now := by
  obtain ⟨hd, hr⟩ := checkTimeouts_ok hok
  rw [dispatch_eq_filter hInv] at hd
  refine ⟨?_, ?_, hInv.2.filter _,
    List.Pairwise.sublist (List.filter_sublist _) hInv.1, hr⟩
  · refine runPass_fired_exact hd (hInv.2.filter _) ?_
    intro k hk
    have hmf := List.mem_filter.mp hk
    exact ⟨hmf.1, by simpa using hmf.2, hself k hmf.1⟩
  · intro id
    simp [List.mem_filter]

/-- Witness for C2, the spec's own no-catch-up scenario: a 100 ms
periodic timer (callback calls `repeat()` with no argument), pass delayed
until `now = 250` — two and a half periods: the pass fires it exactly
once (`fired = [0]`), and the returned next-timeout is computed after the
rearm (the rearmed timer is due at 200, already past, so 0 is returned
rather than the claim-violating second firing). -/
theorem checkTimeouts_dispatch_contract_witness :
    ∃ r w', checkTimeouts repWorld 250 = .ok (r, w') ∧
      w'.fired = repWorld.fired ++
        repWorld.pending.filter (fun id => decide (dueOf repWorld id ≤ 250)) ∧
      r = getNextTimeout w' 250 ∧
      w'.fired = [0] ∧ r = 0 := by
  obtain ⟨⟨r, w'⟩, hp⟩ : ∃ p, checkTimeouts repWorld 250 = .ok p := ⟨_, rfl⟩
  have h := checkTimeouts_dispatch_contract repWorld 250 r w'
    (by constructor <;> simp [repWorld])
    (by
      intro k hk a ha
      simp only [repWorld] at hk
      rw [List.mem_singleton] at hk
      subst hk
      simp [repWorld] at ha
      subst ha
      rfl)
    hp
  have hfval : (checkTimeouts repWorld 250).map (fun p => p.2.fired) =
      .ok [0] := by rfl
  have hrval : (checkTimeouts repWorld 250).map (fun p => p.1) =
      .ok 0 := by rfl
  rw [hp] at hfval hrval
  simp only [Except.map, Except.ok.injEq] at hfval hrval
  exact ⟨r, w', hp, h.1, h.2.2.2.2, hfval, hrval⟩

/-- Claim C10: the header declares `Callback::handleTimeout(Timer*)` as
returning `void` (Timer.h line 54), so dispatch has no continue/cancel
result to observe — in the model callbacks are action lists producing no
result.  For a timer fired during a `checkTimeouts()` pass: it is removed
from the registry before its callback is invoked (a callback whose first
action probes its own `isStarted` records `false`), and it remains
inactive after the pass unless a callback explicitly calls `start()` or
`repeat()` on it (here: its own callback contains no rearming action and
every callback acts only on its own timer). -/
theorem void_callback_dispatch (w : World) (now r : Int) (w' w2 : World)
    (id : Nat) (rest : List CbAct)
    (hInv : RegInv w)
    (hself : ∀ k ∈ w.pending, SelfCb w k)
    (hmem : id ∈ w.pending) (hdue : dueOf w id ≤ now)
    (hcb : (w.timers id).cb = CbAct.cprobe id :: rest)
    (hnorearm : ∀ a ∈ (w.timers id).cb, a.isRearm = false)
    (hfire : fireOne now w id = .ok w2)
    (hok : checkTimeouts w now = .ok (r, w')) :
    w2.probes[w.probes.length]? = some (id, false) ∧
    isStarted w' id = false := by
  constructor
  · rw [fireOne_of_due hmem hdue, hcb] at hfire
    obtain ⟨w4, ha, hrest⟩ := except_bind_ok hfire
    simp only [runAct] at ha
    cases ha
    have hIS : isStarted (firePrep w id) id = false :=
      decide_eq_false not_mem_firePrep_self
    obtain ⟨t, ht⟩ := runCb_probes hrest
    rw [ht]
    show ((firePrep w id).probes ++
      [(id, isStarted (firePrep w id) id)] ++ t)[w.probes.length]? = _
    rw [hIS, firePrep_probes, List.append_assoc,
      List.getElem?_append_right (le_refl w.probes.length)]
    simp
  · obtain ⟨hd, -⟩ := checkTimeouts_ok hok
    rw [dispatch_eq_filter hInv] at hd
    have hidf : id ∈ w.pending.filter (fun k => decide (dueOf w k ≤ now)) := by
      rw [List.mem_filter]
      exact ⟨hmem, by simpa using hdue⟩
    obtain ⟨s1, s2, hsplit⟩ := List.append_of_mem hidf
    have hnd : (w.pending.filter (fun k => decide (dueOf w k ≤ now))).Nodup :=
      hInv.2.filter _
    rw [hsplit] at hd hnd
    have hid1 : id ∉ s1 := by
      rcases List.nodup_append.mp hnd with ⟨-, -, hdisj⟩
      intro hc
      exact hdisj hc (List.mem_cons_self id s2)
    have hsubmem : ∀ k ∈ s1 ++ id :: s2, k ∈ w.pending := by
      intro k hk
      have hkf : k ∈ w.pending.filter (fun k => decide (dueOf w k ≤ now)) :=
        hsplit ▸ hk
      exact (List.mem_filter.mp hkf).1
    rw [runPass_append] at hd
    obtain ⟨wA, hA, hrest1⟩ := except_bind_ok hd
    obtain ⟨wB, hB, hC⟩ := except_bind_ok hrest1
    have hselfA : ∀ k ∈ s1, SelfCb w k := fun k hk =>
      hself k (hsubmem k (List.mem_append_left _ hk))
    have hframe := runPass_frame hA hselfA hid1
    have hmemA : id ∈ wA.pending := hframe.1.mpr hmem
    have hdueA : dueOf wA id ≤ now := by
      unfold dueOf
      rw [hframe.2]
      exact hdue
    have hcbA : (wA.timers id).cb = (w.timers id).cb := by rw [hframe.2]
    have hBrc : runCb now (firePrep wA id) ((wA.timers id).cb) = .ok wB := by
      rw [← fireOne_of_due hmemA hdueA]
      exact hB
    have hidB : id ∉ wB.pending := by
      refine runCb_keeps_out hBrc not_mem_firePrep_self ?_
      intro a ha hre
      rw [hcbA] at ha
      rw [hnorearm a ha] at hre
      exact absurd hre (by simp)
    have hcbsB : ∀ k ∈ s2, SelfCb wB k := by
      intro k hk a ha
      rw [fireOne_cb hB k, runPass_cb hA k] at ha
      exact hself k (hsubmem k (List.mem_append_right _
        (List.mem_cons_of_mem id hk))) a ha
    have hidW : id ∉ w'.pending := runPass_keeps_out hC hcbsB hidB
    exact decide_eq_false hidW

/-- Witness for C10: a 50 ms timer whose callback only probes its own
`isStarted`: at `now = 50` the pass fires it; the probe records `false`
(removed before the callback ran), and after the pass it is inactive. -/
theorem void_callback_dispatch_witness :
    ∃ r w' w2,
      fireOne 50 probeWorld 0 = .ok w2 ∧
      checkTimeouts probeWorld 50 = .ok (r, w') ∧
      w2.probes[probeWorld.probes.length]? = some (0, false) ∧
      isStarted w' 0 = false := by
  obtain ⟨w2, hf⟩ : ∃ x, fireOne 50 probeWorld 0 = .ok x := ⟨_, rfl⟩
  obtain ⟨⟨r, w'⟩, hp⟩ : ∃ p, checkTimeouts probeWorld 50 = .ok p := ⟨_, rfl⟩
  have h := void_callback_dispatch probeWorld 50 r w' w2 0 []
    (by constructor <;> simp [probeWorld])
    (by
      intro k hk a ha
      simp only [probeWorld] at hk
      rw [List.mem_singleton] at hk
      subst hk
      simp [probeWorld] at ha
      subst ha
      rfl)
    (by simp [probeWorld])
    (by rfl)
    (by rfl)
    (by
      intro a ha
      simp [probeWorld] at ha
      subst ha
      rfl)
    hf hp
  exact ⟨r, w', w2, hf, hp, h.1, h.2⟩

/-- Claim C4 (the code against the claim): the header's own comment on
`handleTimeout` (Timer.h lines 48-53) promises that returning true resets
the timer and returning false cancels it, but the declaration on line 54
returns `void` — there is no continue/cancel result for the dispatcher to
observe, and no implicit `repeat()`-style rearm happens.  Evaluating the
model at the failing input — a timer armed for 50 ms, due at the pass's
sampled `now = 50`, whose callback merely returns — the pass fires it
once and leaves it inactive with an empty registry and the no-timers
sentinel `-1`, where the claim would have the "continue" case rearm it. -/
theorem handleTimeout_void_no_implicit_rearm :
    (checkTimeouts noopWorld 50).map
      (fun p => (p.1, p.2.fired, p.2.pending)) = .ok (-1, [0], []) := by
  rfl
